import Mathlib

/-!
# vent-booster: the display renderer (`display.cpp`)

A shallow embedding of `c_to_f`, `get_whole`, `get_mantissa`, `Display::Start`
and `Display::Update`, with the pieces of the platform they rest on:

* `float` is IEEE-754 binary32 with round-to-nearest, ties-to-even, every
  operation rounded on its own.  A finite value is kept as an integer number of
  units of `2^-149` (the smallest subnormal), so all arithmetic is integer
  arithmetic.  The sign of zero is not tracked: nothing in this program can
  observe it.
* `uint` is 32 bits wide.  A `float → uint` cast truncates when the truncated
  value fits; otherwise C++ leaves the result undefined and the embedding takes
  it from a parameter `oor` (reduced modulo `2^32`), so every statement holds
  for whatever the platform returns there.
* `int` is 32 bits wide as well, two's complement: `%d` prints the `uint` it is
  handed as the `int` with the same bits.
* `sprintf` and the Adafruit device are library code.  `sprintf` is modelled on
  the byte level; it is unchecked, so a text longer than the buffer is stored
  in full, past the 32 bytes, and whether that happens is a property of the
  inputs proved separately.  The device is modelled by its text state and two
  frames, with a frame buffer in place and the glyph renderer a parameter.
-/

/-! ## binary32 -/

namespace F32

/-- The value `1.0` in units of `2^-149`. -/
def one : Nat := 2 ^ 149

/-- Number of halvings that bring `q` below `2^24`. -/
def expoAux : Nat → Nat → Nat
  | 0, _ => 0
  | fuel + 1, q => if q < 2 ^ 24 then 0 else expoAux fuel (q / 2) + 1

/-- Exponent of the quantum (unit in the last place, in units of `2^-149`) of
the binade holding `q`: `0` below `2^24`, otherwise the `e` with
`2^(23+e) ≤ q < 2^(24+e)`. -/
def expo (q : Nat) : Nat := expoAux q q

/-- Round the non-negative rational `a / b` (in units of `2^-149`) to the
nearest multiple of the quantum of its binade, ties to the even multiple. -/
def roundNE (a b : Nat) : Nat :=
  let e := expo (a / b)
  let d := b * 2 ^ e
  let m := a / d
  let r := a % d
  (if d < 2 * r ∨ (2 * r = d ∧ m % 2 = 1) then m + 1 else m) * 2 ^ e

/-- A magnitude (in units of `2^-149`) that binary32 can hold: a multiple of
the quantum of its binade, below `2^128`. -/
def Rep (n : Nat) : Prop := n % 2 ^ expo n = 0 ∧ n < 2 ^ 128 * one

instance (n : Nat) : Decidable (Rep n) := by
  unfold Rep; infer_instance

end F32

/-- A binary32 value: a finite value `n * 2^-149`, an infinity, or a NaN. -/
inductive F32 where
  | fin (n : Int)
  | inf (neg : Bool)
  | nan
  deriving DecidableEq

namespace F32

/-- The finite binary32 values. -/
def Finite : F32 → Prop
  | fin n => Rep n.natAbs
  | _ => False

instance (x : F32) : Decidable (Finite x) := by
  cases x <;> unfold Finite <;> infer_instance

/-- Result of an operation whose exact value is `± a / b` units: rounded to
nearest-even, overflowing to an infinity. -/
def round (neg : Bool) (a b : Nat) : F32 :=
  let n := roundNE a b
  if n < 2 ^ 128 * one then fin (if neg then -(n : Int) else (n : Int)) else inf neg

/-- Conversion of an unsigned (or non-negative) integer to `float`. -/
def ofNat (k : Nat) : F32 := round false (k * one) 1

/-- The `float` nearest to the decimal literal `num / den`. -/
def ofDec (num den : Nat) : F32 := round false (num * one) den

/-- Negation. -/
def neg : F32 → F32
  | fin n => fin (-n)
  | inf s => inf (!s)
  | nan => nan

/-- Addition: the exact sum, rounded once. -/
def add : F32 → F32 → F32
  | fin x, fin y => round (decide (x + y < 0)) (x + y).natAbs 1
  | fin _, inf s => inf s
  | inf s, fin _ => inf s
  | inf s, inf t => if s = t then inf s else nan
  | _, _ => nan

/-- Subtraction: the exact difference, rounded once. -/
def sub (x y : F32) : F32 := add x (neg y)

/-- Multiplication: the exact product (`x * y / 2^149` units), rounded once. -/
def mul : F32 → F32 → F32
  | fin x, fin y => round (decide (x < 0) != decide (y < 0)) (x.natAbs * y.natAbs) one
  | fin x, inf s => if x = 0 then nan else inf (decide (x < 0) != s)
  | inf s, fin y => if y = 0 then nan else inf (s != decide (y < 0))
  | inf s, inf t => inf (s != t)
  | _, _ => nan

/-- Division: the exact quotient (`x * 2^149 / y` units), rounded once. -/
def div : F32 → F32 → F32
  | fin x, fin y =>
    if y = 0 then (if x = 0 then nan else inf (decide (x < 0)))
    else round (decide (x < 0) != decide (y < 0)) (x.natAbs * one) y.natAbs
  | fin _, inf _ => fin 0
  | inf s, fin y => inf (s != decide (y < 0))
  | _, _ => nan

/-- The cast `(uint)x` where C++ defines it: truncation toward zero when the
truncated value is a `uint`, that is for `-1 < x < 2^32`. -/
def toUInt? : F32 → Option Nat
  | fin n => if -(one : Int) < n ∧ n < 2 ^ 32 * (one : Int) then some (n.toNat / one) else none
  | _ => none

/-- The cast `(uint)x` on a platform: as `toUInt?` where that is defined,
otherwise the platform's result `oor x`, as a 32-bit value. -/
def toUInt (oor : F32 → Nat) (x : F32) : Nat :=
  match toUInt? x with
  | some k => k
  | none => oor x % 2 ^ 32

/-- Exact value of a finite `float` (`0` for the others). -/
def toRat : F32 → ℚ
  | fin n => (n : ℚ) / 2 ^ 149
  | _ => 0

end F32

/-! ## `display.cpp`: the numeric helpers -/

/-- Source: `float c_to_f(float temp_C) { return temp_C * 9 / 5 + 32; }`; the
three integer constants are converted to `float`, the operations associate to
the left. -/
def c_to_f (temp_C : F32) : F32 :=
  F32.add (F32.div (F32.mul temp_C (F32.ofNat 9)) (F32.ofNat 5)) (F32.ofNat 32)

/-- Source: `uint get_whole(float num) { return (uint)num; }`. -/
def get_whole (oor : F32 → Nat) (num : F32) : Nat := F32.toUInt oor num

/-- Source: `uint get_mantissa(float num) { return (uint)((num - get_whole(num)) * 10); }`;
`get_whole(num)` is converted to `float` for the subtraction. -/
def get_mantissa (oor : F32 → Nat) (num : F32) : Nat :=
  F32.toUInt oor (F32.mul (F32.sub num (F32.ofNat (get_whole oor num))) (F32.ofNat 10))

/-! ## The C library: `sprintf` into a byte buffer -/

/-- The terminating byte of a C string. -/
def NUL : Char := Char.ofNat 0

/-- Decimal digits of `n`, most significant first, with `fuel` digits at most. -/
def digitsAux : Nat → Nat → List Char
  | 0, _ => []
  | fuel + 1, n =>
    if n < 10 then [Char.ofNat (48 + n)]
    else digitsAux fuel (n / 10) ++ [Char.ofNat (48 + n % 10)]

/-- Decimal numeral of a natural number. -/
def dec (n : Nat) : List Char := digitsAux (n + 1) n

/-- What `%d` prints for a 32-bit argument: the `uint` passed is read back as a
two's-complement `int`. -/
def fmt_d (k : Nat) : List Char :=
  if k < 2 ^ 31 then dec k else '-' :: dec (2 ^ 32 - k)

/-- The C string at a pointer: the bytes up to the first NUL. -/
def c_str (p : List Char) : List Char := p.takeWhile (fun c => c != NUL)

/-- An argument passed to `sprintf`. -/
inductive Arg where
  | uint (n : Nat)
  | str (p : List Char)

/-- The text `sprintf` produces for a format string with `%d` and `%s`. -/
def format : List Char → List Arg → List Char
  | '%' :: 'd' :: fmt, Arg.uint n :: args => fmt_d n ++ format fmt args
  | '%' :: 's' :: fmt, Arg.str p :: args => c_str p ++ format fmt args
  | c :: fmt, args => c :: format fmt args
  | [], _ => []

/-- The bytes one `sprintf` call stores at the start of the buffer: the text and
its terminating NUL.  `sprintf` does not look at the size of the buffer. -/
def sprintf_bytes (fmt : List Char) (args : List Arg) : List Char :=
  format fmt args ++ [NUL]

/-- Memory from `buff` on after `sprintf(buff, fmt, args)`: the stored bytes
replace what was there, the bytes behind them stay. -/
def sprintf (buff : List Char) (fmt : List Char) (args : List Arg) : List Char :=
  sprintf_bytes fmt args ++ buff.drop (sprintf_bytes fmt args).length

/-! ## The display device (Adafruit SSD1306 behind `display_`) -/

/-- Draw colours of the monochrome panel. -/
inductive Color where
  | black
  | white
  | inverse
  deriving DecidableEq

/-- How the panel's drive voltage is produced (first argument of `begin`). -/
inductive VccSource where
  | externalVcc
  | switchCapVcc
  deriving DecidableEq

/-- The operations `display.cpp` performs on `display_` once it has begun. -/
inductive DisplayCall where
  | dim (enable : Bool)
  | setTextColor (c : Color)
  | setTextWrap (w : Bool)
  | cp437 (enable : Bool)
  | setTextSize (sx sy : Nat)
  | setCursor (x y : Int)
  | clearDisplay
  | write (text : List Char)
  | display
  deriving DecidableEq

/-- The text state of the device: where and how the next `write` draws. -/
structure TextState where
  cursor_x : Int
  cursor_y : Int
  textsize_x : Nat
  textsize_y : Nat
  textcolor : Color
  wrap : Bool
  cp437 : Bool
  deriving DecidableEq

/-- The glyph renderer of the library, left open: what a blank frame is, and
what writing a text with a given text state does to the off-screen buffer and
to the cursor. -/
structure Gfx (Frame : Type) where
  blank : Frame
  drawText : TextState → List Char → Frame → Frame × Int × Int

/-- State of the device: text state, dimming, the off-screen buffer and the
frame last presented on the panel. -/
structure Device (Frame : Type) where
  text : TextState
  dimmed : Bool
  buffer : Frame
  screen : Frame

namespace Device

variable {Frame : Type}

/-- Effect of one operation on the device. -/
def step (g : Gfx Frame) (d : Device Frame) : DisplayCall → Device Frame
  | DisplayCall.dim b => { d with dimmed := b }
  | DisplayCall.setTextColor c => { d with text := { d.text with textcolor := c } }
  | DisplayCall.setTextWrap w => { d with text := { d.text with wrap := w } }
  | DisplayCall.cp437 b => { d with text := { d.text with cp437 := b } }
  | DisplayCall.setTextSize sx sy =>
    { d with text := { d.text with textsize_x := sx, textsize_y := sy } }
  | DisplayCall.setCursor x y => { d with text := { d.text with cursor_x := x, cursor_y := y } }
  | DisplayCall.clearDisplay => { d with buffer := g.blank }
  | DisplayCall.write text =>
    let r := g.drawText d.text text d.buffer
    { d with buffer := r.1, text := { d.text with cursor_x := r.2.1, cursor_y := r.2.2 } }
  | DisplayCall.display => { d with screen := d.buffer }

/-- Effect of a sequence of operations. -/
def run (g : Gfx Frame) (d : Device Frame) (calls : List DisplayCall) : Device Frame :=
  calls.foldl (step g) d

/-- The text fields a sequence of operations draws: for each `write`, the
cursor position it starts at and its text. -/
def fields (g : Gfx Frame) : Device Frame → List DisplayCall → List (Int × Int × List Char)
  | _, [] => []
  | d, DisplayCall.write text :: cs =>
    (d.text.cursor_x, d.text.cursor_y, text) :: fields g (step g d (DisplayCall.write text)) cs
  | d, c :: cs => fields g (step g d c) cs

end Device

/-! ## `display.cpp`: `Display::Start` and `Display::Update` -/

namespace Display

/-- The bus address of the panel, `SCREEN_ADDRESS = 0x3C` in `display.h`. -/
def SCREEN_ADDRESS : Nat := 0x3C

/-- What `Start` does to the outside world. -/
inductive Effect where
  | begin (vcs : VccSource) (addr : Nat) (reset periphBegin : Bool)
  | serialPrintln (msg : String)
  | call (c : DisplayCall)
  deriving DecidableEq

/-- The method `Display::Start`; `beginOk` is what `display_.begin(...)` returns.
The method returns `void`: the effects are all there is. -/
def Start (beginOk : Bool) : List Effect :=
  Effect.begin VccSource.switchCapVcc SCREEN_ADDRESS false false ::
  if !beginOk then
    [Effect.serialPrintln "SSD1306 allocation failed"]
  else
    [Effect.call (DisplayCall.dim true),
     Effect.call (DisplayCall.setTextColor Color.white),
     Effect.call (DisplayCall.setTextWrap false),
     Effect.call (DisplayCall.cp437 true),
     Effect.call DisplayCall.clearDisplay,
     Effect.call DisplayCall.display]

/-- What one `Update` call does: the operations on `display_`, in order, and
the bytes each of its `sprintf` calls stores into `buff`, in order. -/
structure Run where
  calls : List DisplayCall
  stored : List (List Char)

/-- The method `Display::Update`; `mode` is the memory at the pointer passed in.
The one buffer `buff` is threaded through the four `sprintf` calls, and each
`write` is handed the C string the buffer holds at that moment. -/
def Update (oor : F32 → Nat) (setpoint_C ambient_C vent_C : F32) (mode : List Char) : Run :=
  let buff0 := List.replicate 32 NUL
  let val1 := c_to_f setpoint_C
  let args1 := [Arg.uint (get_whole oor val1), Arg.uint (get_mantissa oor val1)]
  let buff1 := sprintf buff0 "Set:%d.%dF".toList args1
  let val2 := c_to_f ambient_C
  let args2 := [Arg.uint (get_whole oor val2), Arg.uint (get_mantissa oor val2)]
  let buff2 := sprintf buff1 "Amb:%d.%dF".toList args2
  let val3 := c_to_f vent_C
  let args3 := [Arg.uint (get_whole oor val3), Arg.uint (get_mantissa oor val3)]
  let buff3 := sprintf buff2 "Vent:%d.%dF".toList args3
  let buff4 := sprintf buff3 "Mode:%s".toList [Arg.str mode]
  { calls :=
      [DisplayCall.setTextSize 1 2,
       DisplayCall.clearDisplay,
       DisplayCall.setCursor 0 0,
       DisplayCall.write (c_str buff1),
       DisplayCall.setCursor 0 18,
       DisplayCall.write (c_str buff2),
       DisplayCall.setCursor 64 0,
       DisplayCall.write (c_str buff3),
       DisplayCall.setCursor 64 18,
       DisplayCall.write (c_str buff4),
       DisplayCall.display],
    stored :=
      [sprintf_bytes "Set:%d.%dF".toList args1,
       sprintf_bytes "Amb:%d.%dF".toList args2,
       sprintf_bytes "Vent:%d.%dF".toList args3,
       sprintf_bytes "Mode:%s".toList [Arg.str mode]] }

end Display

/-- The texts of the `write` operations of a sequence, in order. -/
def writes : List DisplayCall → List (List Char)
  | [] => []
  | DisplayCall.write text :: cs => text :: writes cs
  | _ :: cs => writes cs

/-! ## Notions used to state the claims -/

/-- Truncation of a rational toward zero. -/
def truncZ (q : ℚ) : ℤ := if 0 ≤ q then ⌊q⌋ else ⌈q⌉

namespace F32

/-- The rationals that are binary32 values. -/
def IsF32 (q : ℚ) : Prop := ∃ x : F32, Finite x ∧ toRat x = q

/-- A finite value `V` with `0 ≤ V < 2^32`. -/
def InUIntRange (V : F32) : Prop := Finite V ∧ 0 ≤ V.toRat ∧ V.toRat < 2 ^ 32

end F32

/-! ## Facts about the byte-level `sprintf` -/

theorem c_str_append_nul (s t : List Char) (h : ∀ c ∈ s, c ≠ NUL) :
    c_str (s ++ NUL :: t) = s := by
  induction s with
  | nil => simp [c_str]
  | cons a s ih =>
    have ha : a ≠ NUL := h a (by simp)
    have hs : ∀ c ∈ s, c ≠ NUL := fun c hc => h c (by simp [hc])
    have := ih hs
    have hb : (a != NUL) = true := by simpa using ha
    simp only [c_str] at this ⊢
    simp [List.takeWhile, hb, this]

theorem c_str_no_nul (p : List Char) : ∀ c ∈ c_str p, c ≠ NUL := by
  intro c hc
  have := List.mem_takeWhile_imp hc
  simpa using this

theorem digitsAux_no_nul (fuel n : Nat) : ∀ c ∈ digitsAux fuel n, c ≠ NUL := by
  induction fuel generalizing n with
  | zero => simp [digitsAux]
  | succ f ih =>
    intro c hc
    unfold digitsAux at hc
    split at hc
    · rename_i h
      simp only [List.mem_singleton] at hc
      subst hc
      interval_cases n <;> decide
    · simp only [List.mem_append, List.mem_singleton] at hc
      rcases hc with hc | hc
      · exact ih _ c hc
      · subst hc
        have : n % 10 < 10 := Nat.mod_lt _ (by norm_num)
        generalize n % 10 = r at this
        interval_cases r <;> decide

theorem fmt_d_no_nul (k : Nat) : ∀ c ∈ fmt_d k, c ≠ NUL := by
  intro c hc
  unfold fmt_d at hc
  split at hc
  · exact digitsAux_no_nul _ _ c hc
  · simp only [List.mem_cons] at hc
    rcases hc with hc | hc
    · subst hc; decide
    · exact digitsAux_no_nul _ _ c hc

theorem format_no_nul (fmt : List Char) (args : List Arg) (h : ∀ c ∈ fmt, c ≠ NUL) :
    ∀ c ∈ format fmt args, c ≠ NUL := by
  induction fmt, args using format.induct with
  | case1 fmt n args ih =>
    intro c hc
    simp only [format, List.mem_append] at hc
    rcases hc with hc | hc
    · exact fmt_d_no_nul _ c hc
    · exact ih (fun c hc => h c (by simp [hc])) c hc
  | case2 fmt p args ih =>
    intro c hc
    simp only [format, List.mem_append] at hc
    rcases hc with hc | hc
    · exact c_str_no_nul _ c hc
    · exact ih (fun c hc => h c (by simp [hc])) c hc
  | case3 c0 fmt args h1 h2 ih =>
    intro c hc
    rw [format] at hc
    · simp only [List.mem_cons] at hc
      rcases hc with hc | hc
      · subst hc; exact h c (by simp)
      · exact ih (fun c hc => h c (by simp [hc])) c hc
    · exact h1
    · exact h2
  | case4 args => simp [format]

/-- What the buffer holds as a C string after a `sprintf` is the text just
formatted, whatever the buffer held before. -/
theorem c_str_sprintf (buff fmt : List Char) (args : List Arg) (h : ∀ c ∈ fmt, c ≠ NUL) :
    c_str (sprintf buff fmt args) = format fmt args := by
  unfold sprintf sprintf_bytes
  rw [List.append_assoc, List.singleton_append]
  exact c_str_append_nul _ _ (format_no_nul fmt args h)

/-! ## The operations of one `Update` -/

/-- The four lines `Update` formats, as text. -/
theorem Update_calls (oor : F32 → Nat) (sp amb vent : F32) (mode : List Char) :
    (Display.Update oor sp amb vent mode).calls =
      [DisplayCall.setTextSize 1 2,
       DisplayCall.clearDisplay,
       DisplayCall.setCursor 0 0,
       DisplayCall.write ("Set:".toList ++ fmt_d (get_whole oor (c_to_f sp)) ++ ".".toList
          ++ fmt_d (get_mantissa oor (c_to_f sp)) ++ "F".toList),
       DisplayCall.setCursor 0 18,
       DisplayCall.write ("Amb:".toList ++ fmt_d (get_whole oor (c_to_f amb)) ++ ".".toList
          ++ fmt_d (get_mantissa oor (c_to_f amb)) ++ "F".toList),
       DisplayCall.setCursor 64 0,
       DisplayCall.write ("Vent:".toList ++ fmt_d (get_whole oor (c_to_f vent)) ++ ".".toList
          ++ fmt_d (get_mantissa oor (c_to_f vent)) ++ "F".toList),
       DisplayCall.setCursor 64 18,
       DisplayCall.write ("Mode:".toList ++ c_str mode),
       DisplayCall.display] := by
  unfold Display.Update
  simp only
  rw [c_str_sprintf _ _ _ (by decide), c_str_sprintf _ _ _ (by decide),
    c_str_sprintf _ _ _ (by decide), c_str_sprintf _ _ _ (by decide)]
  simp [format]

theorem Update_stored (oor : F32 → Nat) (sp amb vent : F32) (mode : List Char) :
    (Display.Update oor sp amb vent mode).stored =
      [("Set:".toList ++ fmt_d (get_whole oor (c_to_f sp)) ++ ".".toList
          ++ fmt_d (get_mantissa oor (c_to_f sp)) ++ "F".toList) ++ [NUL],
       ("Amb:".toList ++ fmt_d (get_whole oor (c_to_f amb)) ++ ".".toList
          ++ fmt_d (get_mantissa oor (c_to_f amb)) ++ "F".toList) ++ [NUL],
       ("Vent:".toList ++ fmt_d (get_whole oor (c_to_f vent)) ++ ".".toList
          ++ fmt_d (get_mantissa oor (c_to_f vent)) ++ "F".toList) ++ [NUL],
       ("Mode:".toList ++ c_str mode) ++ [NUL]] := by
  unfold Display.Update sprintf_bytes
  simp [format]

/-- After an `Update` the panel shows the buffer that was just drawn. -/
theorem Update_presents {Frame : Type} (g : Gfx Frame) (d : Device Frame)
    (oor : F32 → Nat) (sp amb vent : F32) (mode : List Char) :
    (Device.run g d (Display.Update oor sp amb vent mode).calls).screen
      = (Device.run g d (Display.Update oor sp amb vent mode).calls).buffer := by
  rw [Update_calls]
  simp [Device.run, Device.step]

/-! ## Facts about binary32 rounding -/

namespace F32

theorem expoAux_of_lt (fuel q : Nat) (h : q < 2 ^ 24) : expoAux fuel q = 0 := by
  cases fuel with
  | zero => rfl
  | succ f => rw [expoAux, if_pos h]

theorem expoAux_spec (fuel : Nat) : ∀ q, q ≤ fuel →
    q < 2 ^ (24 + expoAux fuel q) ∧ (2 ^ 24 ≤ q → 2 ^ (23 + expoAux fuel q) ≤ q) := by
  induction fuel with
  | zero =>
    intro q hq
    have : q = 0 := by omega
    subst this
    simp [expoAux]
  | succ f ih =>
    intro q hq
    by_cases h : q < 2 ^ 24
    · rw [expoAux, if_pos h]
      exact ⟨h, fun h2 => absurd h (by omega)⟩
    · rw [expoAux, if_neg h]
      have hq2 : q / 2 ≤ f := by omega
      obtain ⟨h1, h2⟩ := ih (q / 2) hq2
      refine ⟨?_, fun _ => ?_⟩
      · have : 2 ^ (24 + (expoAux f (q / 2) + 1)) = 2 * 2 ^ (24 + expoAux f (q / 2)) := by
          rw [← Nat.add_assoc, Nat.pow_succ, Nat.mul_comm]
        omega
      · by_cases h3 : 2 ^ 24 ≤ q / 2
        · have := h2 h3
          have e : 2 ^ (23 + (expoAux f (q / 2) + 1)) = 2 * 2 ^ (23 + expoAux f (q / 2)) := by
            rw [← Nat.add_assoc, Nat.pow_succ, Nat.mul_comm]
          omega
        · rw [expoAux_of_lt f (q / 2) (by omega)]
          simp only [Nat.zero_add, Nat.reduceAdd]
          omega

theorem expo_of_lt {q : Nat} (h : q < 2 ^ 24) : expo q = 0 := expoAux_of_lt q q h

theorem lt_expo (q : Nat) : q < 2 ^ (24 + expo q) := (expoAux_spec q q (Nat.le_refl q)).1

theorem expo_le {q : Nat} (h : 2 ^ 24 ≤ q) : 2 ^ (23 + expo q) ≤ q :=
  (expoAux_spec q q (Nat.le_refl q)).2 h

theorem expo_mono {a b : Nat} (h : a ≤ b) : expo a ≤ expo b := by
  by_cases ha : a < 2 ^ 24
  · rw [expo_of_lt ha]; exact Nat.zero_le _
  · have h1 := expo_le (Nat.le_of_not_lt ha)
    have h2 := lt_expo b
    have : 2 ^ (23 + expo a) < 2 ^ (24 + expo b) := by omega
    have := (Nat.pow_lt_pow_iff_right (by norm_num : 1 < 2)).1 this
    omega

theorem expo_unique {q e : Nat} (h1 : 2 ^ (23 + e) ≤ q) (h2 : q < 2 ^ (24 + e)) : expo q = e := by
  by_cases hq : q < 2 ^ 24
  · rw [expo_of_lt hq]
    have : 2 ^ (23 + e) < 2 ^ 24 := by omega
    have := (Nat.pow_lt_pow_iff_right (by norm_num : 1 < 2)).1 this
    omega
  · have h3 := expo_le (Nat.le_of_not_lt hq)
    have h4 := lt_expo q
    have a1 : 2 ^ (23 + expo q) < 2 ^ (24 + e) := by omega
    have a2 : 2 ^ (23 + e) < 2 ^ (24 + expo q) := by omega
    have := (Nat.pow_lt_pow_iff_right (by norm_num : 1 < 2)).1 a1
    have := (Nat.pow_lt_pow_iff_right (by norm_num : 1 < 2)).1 a2
    omega


theorem roundNE_exact {n b : Nat} (hb : 0 < b) (hn : n % 2 ^ expo n = 0) :
    roundNE (n * b) b = n := by
  unfold roundNE
  have hq : n * b / b = n := Nat.mul_div_cancel n hb
  simp only [hq]
  generalize expo n = e at hn ⊢
  obtain ⟨k, hk⟩ := Nat.dvd_of_mod_eq_zero hn
  have hd : 0 < b * 2 ^ e := Nat.mul_pos hb (Nat.pow_pos (by norm_num))
  have e1 : n * b = k * (b * 2 ^ e) := by rw [hk]; ring
  have hm : n * b / (b * 2 ^ e) = k := by rw [e1]; exact Nat.mul_div_cancel k hd
  have hr : n * b % (b * 2 ^ e) = 0 := by rw [e1]; exact Nat.mul_mod_left _ _
  rw [hm, hr]
  have : ¬ (b * 2 ^ e < 2 * 0 ∨ 2 * 0 = b * 2 ^ e ∧ k % 2 = 1) := by omega
  rw [if_neg this, hk, Nat.mul_comm]

/-- A grid value not above `q` is not above `q` rounded down to the grid of its
own binade. -/
theorem grid_floor {q c : Nat} (hc : c % 2 ^ expo c = 0) (hq : c ≤ q) :
    c ≤ q / 2 ^ expo q * 2 ^ expo q := by
  have hmono := expo_mono hq
  rcases Nat.lt_or_ge (expo c) (expo q) with hlt | hge
  · have hq24 : 2 ^ 24 ≤ q := by
      by_contra hcon
      rw [expo_of_lt (Nat.lt_of_not_le hcon)] at hlt
      omega
    have h1 := expo_le hq24
    have h2 := lt_expo c
    have h3 : 2 ^ (24 + expo c) ≤ 2 ^ (23 + expo q) :=
      Nat.pow_le_pow_right (by norm_num) (by omega)
    have h4 : 2 ^ (23 + expo q) = 2 ^ 23 * 2 ^ expo q := Nat.pow_add _ _ _
    have h5 : 2 ^ 23 ≤ q / 2 ^ expo q := by
      rw [Nat.le_div_iff_mul_le (Nat.pow_pos (by norm_num))]; omega
    calc c ≤ 2 ^ 23 * 2 ^ expo q := by omega
      _ ≤ q / 2 ^ expo q * 2 ^ expo q := Nat.mul_le_mul_right _ h5
  · have he : expo c = expo q := Nat.le_antisymm hmono hge
    rw [he] at hc
    obtain ⟨k, hk⟩ := Nat.dvd_of_mod_eq_zero hc
    have hpos : 0 < 2 ^ expo q := Nat.pow_pos (by norm_num)
    have : k ≤ q / 2 ^ expo q := by
      rw [Nat.le_div_iff_mul_le hpos]; rw [hk] at hq; rw [Nat.mul_comm]; exact hq
    calc c = k * 2 ^ expo q := by rw [hk, Nat.mul_comm]
      _ ≤ q / 2 ^ expo q * 2 ^ expo q := Nat.mul_le_mul_right _ this

theorem roundNE_lower {a b c : Nat} (hb : 0 < b) (hc : c % 2 ^ expo c = 0) (h : c * b ≤ a) :
    c ≤ roundNE a b := by
  unfold roundNE
  have hq : c ≤ a / b := (Nat.le_div_iff_mul_le hb).2 h
  have hm : a / (b * 2 ^ expo (a / b)) = a / b / 2 ^ expo (a / b) := by
    rw [Nat.div_div_eq_div_mul]
  simp only [hm]
  have key := grid_floor hc hq
  generalize a / b = q at hq key ⊢
  split_ifs
  · calc c ≤ q / 2 ^ expo q * 2 ^ expo q := key
      _ ≤ (q / 2 ^ expo q + 1) * 2 ^ expo q := Nat.mul_le_mul_right _ (Nat.le_succ _)
  · exact key

theorem roundNE_upper {a b c : Nat} (hb : 0 < b) (hc : c % 2 ^ expo c = 0) (h : a ≤ c * b) :
    roundNE a b ≤ c := by
  unfold roundNE
  have hq : a / b ≤ c := by
    calc a / b ≤ c * b / b := Nat.div_le_div_right h
      _ = c := Nat.mul_div_cancel c hb
  have hmono := expo_mono hq
  generalize expo (a / b) = e at hmono ⊢
  have hdvd : 2 ^ e ∣ c :=
    Nat.dvd_trans (Nat.pow_dvd_pow 2 hmono) (Nat.dvd_of_mod_eq_zero hc)
  obtain ⟨k, hk⟩ := hdvd
  have hd : 0 < b * 2 ^ e := Nat.mul_pos hb (Nat.pow_pos (by norm_num))
  have hak : a ≤ k * (b * 2 ^ e) := by
    calc a ≤ c * b := h
      _ = k * (b * 2 ^ e) := by rw [hk]; ring
  have hmk : a / (b * 2 ^ e) ≤ k := by
    calc a / (b * 2 ^ e) ≤ k * (b * 2 ^ e) / (b * 2 ^ e) := Nat.div_le_div_right hak
      _ = k := Nat.mul_div_cancel k hd
  have hdm := Nat.div_add_mod a (b * 2 ^ e)
  have hfin : (if b * 2 ^ e < 2 * (a % (b * 2 ^ e)) ∨
      (2 * (a % (b * 2 ^ e)) = b * 2 ^ e ∧ a / (b * 2 ^ e) % 2 = 1)
      then a / (b * 2 ^ e) + 1 else a / (b * 2 ^ e)) ≤ k := by
    split_ifs with hcond
    · have hr : 0 < a % (b * 2 ^ e) := by omega
      by_contra hcon
      have hmeq : a / (b * 2 ^ e) = k := by omega
      rw [hmeq] at hdm
      have : b * 2 ^ e * k = k * (b * 2 ^ e) := Nat.mul_comm _ _
      omega
    · exact hmk
  calc _ ≤ k * 2 ^ e := Nat.mul_le_mul_right _ hfin
    _ = c := by rw [hk, Nat.mul_comm]

theorem quant_of_dvd {r e : Nat} (hd : 2 ^ e ∣ r) (hr : r ≤ 2 ^ (24 + e)) :
    r % 2 ^ expo r = 0 := by
  apply Nat.mod_eq_zero_of_dvd
  rcases Nat.lt_or_ge r (2 ^ (24 + e)) with hlt | hge
  · have hle : expo r ≤ e := by
      by_cases h24 : r < 2 ^ 24
      · rw [expo_of_lt h24]; exact Nat.zero_le _
      · have h1 := expo_le (Nat.le_of_not_lt h24)
        have : 2 ^ (23 + expo r) < 2 ^ (24 + e) := by omega
        have := (Nat.pow_lt_pow_iff_right (by norm_num : 1 < 2)).1 this
        omega
    exact Nat.dvd_trans (Nat.pow_dvd_pow 2 hle) hd
  · have hre : r = 2 ^ (24 + e) := Nat.le_antisymm hr hge
    have hex : expo r = e + 1 := by
      apply expo_unique
      · rw [hre]; exact Nat.pow_le_pow_right (by norm_num) (by omega)
      · rw [hre]; exact Nat.pow_lt_pow_right (by norm_num) (by omega)
    rw [hex, hre]
    exact Nat.pow_dvd_pow 2 (by omega)

theorem roundNE_quant (a b : Nat) : roundNE a b % 2 ^ expo (roundNE a b) = 0 := by
  unfold roundNE
  have hm : a / (b * 2 ^ expo (a / b)) = a / b / 2 ^ expo (a / b) := by
    rw [Nat.div_div_eq_div_mul]
  simp only [hm]
  have hlt := lt_expo (a / b)
  generalize a / b = q at hlt ⊢
  generalize expo q = e at hlt ⊢
  have hpos : 0 < 2 ^ e := Nat.pow_pos (by norm_num)
  have hm24 : q / 2 ^ e < 2 ^ 24 := by
    rw [Nat.div_lt_iff_lt_mul hpos, ← Nat.pow_add]; exact hlt
  apply quant_of_dvd (e := e)
  · exact Nat.dvd_mul_left _ _
  · rw [Nat.pow_add]
    apply Nat.mul_le_mul_right
    split_ifs <;> omega


/-- Round to nearest: the result of `roundNE` is at least as close to `a / b`
as any other magnitude `c` on the binary32 grid. -/
theorem roundNE_nearest {a b c : Nat} (hb : 0 < b) (hc : c % 2 ^ expo c = 0) :
    (((roundNE a b * b : Nat) : Int) - (a : Int)).natAbs
      ≤ (((c * b : Nat) : Int) - (a : Int)).natAbs := by
  have hd : 0 < b * 2 ^ expo (a / b) := Nat.mul_pos hb (Nat.pow_pos (by norm_num))
  have hdm := Nat.div_add_mod a (b * 2 ^ expo (a / b))
  have hr := Nat.mod_lt a hd
  have hm : a / (b * 2 ^ expo (a / b)) = a / b / 2 ^ expo (a / b) := by
    rw [Nat.div_div_eq_div_mul]
  have hR : roundNE a b * b
      = (if b * 2 ^ expo (a / b) < 2 * (a % (b * 2 ^ expo (a / b))) ∨
            (2 * (a % (b * 2 ^ expo (a / b))) = b * 2 ^ expo (a / b) ∧
              a / (b * 2 ^ expo (a / b)) % 2 = 1)
          then b * 2 ^ expo (a / b) * (a / (b * 2 ^ expo (a / b))) + b * 2 ^ expo (a / b)
          else b * 2 ^ expo (a / b) * (a / (b * 2 ^ expo (a / b)))) := by
    unfold roundNE
    simp only
    split_ifs <;> ring
  rw [hR]
  rcases Nat.le_total (c * b) a with hle | hge
  · have hq : c ≤ a / b := (Nat.le_div_iff_mul_le hb).2 hle
    have hlow := grid_floor hc hq
    rw [← hm] at hlow
    have hlow2 : c * b ≤ b * 2 ^ expo (a / b) * (a / (b * 2 ^ expo (a / b))) := by
      calc c * b ≤ a / (b * 2 ^ expo (a / b)) * 2 ^ expo (a / b) * b :=
            Nat.mul_le_mul_right _ hlow
        _ = b * 2 ^ expo (a / b) * (a / (b * 2 ^ expo (a / b))) := by ring
    generalize b * 2 ^ expo (a / b) = d at *
    generalize a / d = m at *
    generalize d * m = M at *
    generalize a % d = r at *
    generalize c * b = X at *
    split_ifs with hup <;> omega
  · by_cases hr0 : a % (b * 2 ^ expo (a / b)) = 0
    · generalize b * 2 ^ expo (a / b) = d at *
      generalize a / d = m at *
      generalize d * m = M at *
      generalize a % d = r at *
      generalize c * b = X at *
      split_ifs with hup <;> omega
    · -- `c` is a multiple of `2^e` above `m * 2^e`, hence at least `(m+1) * 2^e`
      have hq : a / b ≤ c := by
        calc a / b ≤ c * b / b := Nat.div_le_div_right hge
          _ = c := Nat.mul_div_cancel c hb
      have hdvd : 2 ^ expo (a / b) ∣ c :=
        Nat.dvd_trans (Nat.pow_dvd_pow 2 (expo_mono hq)) (Nat.dvd_of_mod_eq_zero hc)
      obtain ⟨k, hk⟩ := hdvd
      have hX : c * b = b * 2 ^ expo (a / b) * k := by rw [hk]; ring
      have hk1 : a / (b * 2 ^ expo (a / b)) + 1 ≤ k := by
        by_contra hcon
        have hkm : k ≤ a / (b * 2 ^ expo (a / b)) := by omega
        have := Nat.mul_le_mul_left (b * 2 ^ expo (a / b)) hkm
        omega
      have hup2 : b * 2 ^ expo (a / b) * (a / (b * 2 ^ expo (a / b))) + b * 2 ^ expo (a / b)
          ≤ c * b := by
        rw [hX]
        calc _ = b * 2 ^ expo (a / b) * (a / (b * 2 ^ expo (a / b)) + 1) := by ring
          _ ≤ b * 2 ^ expo (a / b) * k := Nat.mul_le_mul_left _ hk1
      generalize b * 2 ^ expo (a / b) = d at *
      generalize a / d = m at *
      generalize d * m = M at *
      generalize a % d = r at *
      generalize c * b = X at *
      split_ifs with hup <;> omega

/-- Ties go to the even neighbour: when `a / b` is half-way between two grid
values, the result of `roundNE` is an even multiple of the quantum. -/
theorem roundNE_tie_even {a b : Nat}
    (h : 2 * (a % (b * 2 ^ expo (a / b))) = b * 2 ^ expo (a / b)) :
    roundNE a b / 2 ^ expo (a / b) % 2 = 0 := by
  unfold roundNE
  simp only
  have hpos : 0 < 2 ^ expo (a / b) := Nat.pow_pos (by norm_num)
  rw [Nat.mul_div_cancel _ hpos]
  split_ifs with hup <;> omega

theorem one_pos : 0 < one := by unfold one; exact Nat.pow_pos (by norm_num)

theorem rep_zero : Rep 0 := by decide

theorem round_of_rep {n : Nat} (neg : Bool) {a b : Nat} (hb : 0 < b) (hn : Rep n)
    (ha : a = n * b) : round neg a b = fin (if neg then -(n : Int) else (n : Int)) := by
  unfold round
  simp only [ha, roundNE_exact hb hn.1, hn.2, if_true]

/-- Every finite result of an operation is a binary32 value. -/
theorem round_finite (neg : Bool) (a b : Nat) (n : Int) (h : round neg a b = fin n) :
    Rep n.natAbs := by
  unfold round at h
  simp only at h
  split_ifs at h with h1 h2
  · injection h with h; subst h
    rw [Int.natAbs_neg, Int.natAbs_ofNat]
    exact ⟨roundNE_quant a b, h1⟩
  · injection h with h; subst h
    rw [Int.natAbs_ofNat]
    exact ⟨roundNE_quant a b, h1⟩

theorem rep_floor {N : Nat} (h : Rep N) : Rep (N / one * one) := by
  refine ⟨?_, Nat.lt_of_le_of_lt (Nat.div_mul_le_self N one) h.2⟩
  apply Nat.mod_eq_zero_of_dvd
  have hle : expo (N / one * one) ≤ expo N := expo_mono (Nat.div_mul_le_self N one)
  have hN : 2 ^ expo N ∣ N := Nat.dvd_of_mod_eq_zero h.1
  rcases Nat.le_total (expo N) 149 with h149 | h149
  · have : 2 ^ expo (N / one * one) ∣ one := by
      unfold one; exact Nat.pow_dvd_pow 2 (Nat.le_trans hle h149)
    exact Nat.dvd_trans this (Nat.dvd_mul_left _ _)
  · have h1 : one ∣ N := by
      unfold one; exact Nat.dvd_trans (Nat.pow_dvd_pow 2 h149) hN
    rw [Nat.div_mul_cancel h1]
    exact hN

theorem rep_frac {N : Nat} (h : Rep N) : Rep (N % one) := by
  refine ⟨?_, Nat.lt_of_le_of_lt (Nat.mod_le N one) h.2⟩
  apply Nat.mod_eq_zero_of_dvd
  have hle : expo (N % one) ≤ expo N := expo_mono (Nat.mod_le N one)
  have hN : 2 ^ expo N ∣ N := Nat.dvd_of_mod_eq_zero h.1
  rcases Nat.le_total (expo N) 149 with h149 | h149
  · have h1 : 2 ^ expo N ∣ one := by unfold one; exact Nat.pow_dvd_pow 2 h149
    have h2 : 2 ^ expo N ∣ N % one := (Nat.dvd_mod_iff h1).2 hN
    exact Nat.dvd_trans (Nat.pow_dvd_pow 2 hle) h2
  · have h1 : one ∣ N := by
      unfold one; exact Nat.dvd_trans (Nat.pow_dvd_pow 2 h149) hN
    rw [Nat.mod_eq_zero_of_dvd h1]
    exact Nat.dvd_zero _

theorem toUInt?_nonneg {N : Nat} (hN : N < 2 ^ 32 * one) :
    toUInt? (fin (N : Int)) = some (N / one) := by
  unfold toUInt?
  have h1 : -(one : Int) < (N : Int) := by
    have := one_pos
    omega
  have h2 : (N : Int) < 2 ^ 32 * (one : Int) := by exact_mod_cast hN
  simp only [h1, h2, and_self, if_true, Int.toNat_ofNat]

theorem toUInt_of_some (oor : F32 → Nat) (x : F32) (k : Nat) (h : toUInt? x = some k) :
    toUInt oor x = k := by
  unfold toUInt
  rw [h]

theorem toUInt_nonneg (oor : F32 → Nat) {N : Nat} (hN : N < 2 ^ 32 * one) :
    toUInt oor (fin (N : Int)) = N / one :=
  toUInt_of_some oor _ _ (toUInt?_nonneg hN)

theorem ofNat_floor {N : Nat} (h : Rep N) : ofNat (N / one) = fin ((N / one * one : Nat) : Int) := by
  unfold ofNat
  rw [round_of_rep false (Nat.one_pos) (rep_floor h) (Nat.mul_one _).symm]
  rfl

theorem sub_floor {N : Nat} (h : Rep N) :
    sub (fin (N : Int)) (ofNat (N / one)) = fin ((N % one : Nat) : Int) := by
  rw [ofNat_floor h]
  unfold sub neg add
  have hdm := Nat.div_add_mod N one
  have e : (N : Int) + -((N / one * one : Nat) : Int) = ((N % one : Nat) : Int) := by
    have : (N : Int) = ((one * (N / one) + N % one : Nat) : Int) := by rw [hdm]
    push_cast at this ⊢
    linarith
  simp only [e]
  have hnn : ¬ (((N % one : Nat) : Int) < 0) := by omega
  simp only [hnn, decide_False, Int.natAbs_ofNat]
  rw [round_of_rep false (Nat.one_pos) (rep_frac h) (Nat.mul_one _).symm]
  rfl


theorem roundNE_mul_right {a b c : Nat} (hc : 0 < c) : roundNE (a * c) (b * c) = roundNE a b := by
  unfold roundNE
  have hq : a * c / (b * c) = a / b := Nat.mul_div_mul_right a b hc
  simp only [hq]
  generalize expo (a / b) = e
  have hd : b * c * 2 ^ e = (b * 2 ^ e) * c := by ring
  rw [hd, Nat.mul_div_mul_right _ _ hc, Nat.mul_mod_mul_right]
  generalize b * 2 ^ e = d
  generalize a % d = r
  have h1 : (d * c < 2 * (r * c)) ↔ (d < 2 * r) := by
    rw [← Nat.mul_assoc]; exact Nat.mul_lt_mul_right hc
  have h2 : (2 * (r * c) = d * c) ↔ (2 * r = d) := by
    rw [← Nat.mul_assoc]; exact Nat.mul_left_inj (Nat.ne_of_gt hc)
  simp only [h1, h2]

set_option maxRecDepth 100000 in
theorem ofNat_ten : ofNat 10 = fin ((10 * one : Nat) : Int) := by decide

theorem frac_le {f : Nat} (hf : Rep f) (h1 : f < one) : f ≤ one - 2 ^ 125 := by
  unfold one at h1 ⊢
  by_cases hlt : f < 2 ^ 148
  · omega
  · have he : expo f = 125 := expo_unique (by omega) (by omega)
    have := hf.1
    rw [he] at this
    omega

set_option maxRecDepth 100000 in
theorem quant_pow152 : 2 ^ 152 % 2 ^ expo (2 ^ 152) = 0 := by decide

theorem roundNE_times_ten (f : Nat) : roundNE (f * (10 * one)) one = roundNE (10 * f) 1 := by
  have h := roundNE_mul_right (a := 10 * f) (b := 1) one_pos
  rw [Nat.one_mul] at h
  have e : f * (10 * one) = 10 * f * one := by ring
  rw [e]
  exact h

theorem roundNE_frac10 {f : Nat} (hf : Rep f) (h1 : f < one) :
    roundNE (f * (10 * one)) one < 10 * one := by
  have hfle := frac_le hf h1
  rw [roundNE_times_ten]
  generalize hx : 10 * f = x
  have hxle : x ≤ 10 * 2 ^ 149 - 10 * 2 ^ 125 := by unfold one at hfle; omega
  clear hx hfle h1 hf
  by_cases hx152 : x < 2 ^ 152
  · have hup : roundNE x 1 ≤ 2 ^ 152 :=
      roundNE_upper Nat.one_pos quant_pow152 (by omega)
    unfold one
    omega
  · have he : expo x = 129 := expo_unique (by omega) (by omega)
    unfold roundNE
    simp only [Nat.div_one, he, Nat.one_mul]
    unfold one
    split_ifs with hc <;> omega


set_option maxRecDepth 100000 in
theorem quant_small (k : Nat) (hk : k ≤ 10) : (k * one) % 2 ^ expo (k * one) = 0 := by
  interval_cases k <;> decide

theorem mantissa_bounds {f : Nat} (hf : Rep f) (h1 : f < one) :
    10 * f / one ≤ roundNE (f * (10 * one)) one / one
    ∧ roundNE (f * (10 * one)) one / one ≤ 10 * f / one + 1
    ∧ roundNE (f * (10 * one)) one / one ≤ 9 := by
  have hlt := roundNE_frac10 hf h1
  have hk : 10 * f / one ≤ 9 := by
    have : 10 * f / one < 10 := by
      rw [Nat.div_lt_iff_lt_mul one_pos]; omega
    omega
  have e : f * (10 * one) = 10 * f * one := by ring
  refine ⟨?_, ?_, ?_⟩
  · rw [Nat.le_div_iff_mul_le one_pos]
    apply roundNE_lower one_pos (quant_small _ (by omega))
    rw [e]
    exact Nat.mul_le_mul_right _ (Nat.div_mul_le_self _ _)
  · have : roundNE (f * (10 * one)) one ≤ (10 * f / one + 1) * one := by
      apply roundNE_upper one_pos (quant_small _ (by omega))
      rw [e]
      apply Nat.mul_le_mul_right
      have := Nat.lt_div_mul_add (a := 10 * f) one_pos
      rw [Nat.add_mul, Nat.one_mul]
      omega
    calc roundNE (f * (10 * one)) one / one ≤ (10 * f / one + 1) * one / one :=
          Nat.div_le_div_right this
      _ = 10 * f / one + 1 := Nat.mul_div_cancel _ one_pos
  · have : roundNE (f * (10 * one)) one / one < 10 := by
      rw [Nat.div_lt_iff_lt_mul one_pos]; exact hlt
    omega

theorem mul_ten {f : Nat} (hf : Rep f) (h1 : f < one) :
    mul (fin (f : Int)) (ofNat 10) = fin ((roundNE (f * (10 * one)) one : Nat) : Int) := by
  rw [ofNat_ten]
  unfold mul round
  have hlt := roundNE_frac10 hf h1
  have hlt2 : roundNE (f * (10 * one)) one < 2 ^ 128 * one := by
    unfold one at hlt ⊢; omega
  have h0 : ¬ ((f : Int) < 0) := by omega
  have h0b : ¬ (((10 * one : Nat) : Int) < 0) := by omega
  simp only [h0, h0b, decide_False, Int.natAbs_ofNat, bne_self_eq_false, hlt2, if_true]
  rfl

theorem get_whole_nonneg (oor : F32 → Nat) {N : Nat} (hN : N < 2 ^ 32 * one) :
    get_whole oor (fin (N : Int)) = N / one := toUInt_nonneg oor hN

theorem get_mantissa_nonneg (oor : F32 → Nat) {N : Nat} (h : Rep N) (hN : N < 2 ^ 32 * one) :
    get_mantissa oor (fin (N : Int)) = roundNE (N % one * (10 * one)) one / one := by
  unfold get_mantissa
  rw [get_whole_nonneg oor hN, sub_floor h, mul_ten (rep_frac h) (Nat.mod_lt _ one_pos)]
  apply toUInt_nonneg
  have hlt := roundNE_frac10 (rep_frac h) (Nat.mod_lt N one_pos)
  unfold one at hlt ⊢; omega

end F32

theorem digitsAux_length_le (fuel : Nat) : ∀ n k, n < 10 ^ (k + 1) →
    (digitsAux fuel n).length ≤ k + 1 := by
  induction fuel with
  | zero => intro n k _; simp [digitsAux]
  | succ f ih =>
    intro n k h
    unfold digitsAux
    split_ifs with h10
    · simp
    · cases k with
      | zero => omega
      | succ k =>
        have : n / 10 < 10 ^ (k + 1) := by
          rw [Nat.div_lt_iff_lt_mul (by norm_num)]
          rw [Nat.pow_succ] at h
          exact h
        have := ih (n / 10) k this
        simp only [List.length_append, List.length_singleton]
        omega

theorem dec_digit {d : Nat} (h : d ≤ 9) : dec d = [Char.ofNat (48 + d)] := by
  unfold dec digitsAux
  rw [if_pos (by omega)]

theorem fmt_d_small {k : Nat} (h : k < 2 ^ 31) : fmt_d k = dec k := by
  unfold fmt_d
  rw [if_pos h]

theorem fmt_d_digit {d : Nat} (h : d ≤ 9) : fmt_d d = [Char.ofNat (48 + d)] := by
  rw [fmt_d_small (by omega), dec_digit h]

theorem fmt_d_length_le {k : Nat} (h : k < 2 ^ 32) : (fmt_d k).length ≤ 11 := by
  unfold fmt_d dec
  split_ifs with h31
  · have := digitsAux_length_le (k + 1) k 9 (by omega)
    omega
  · have := digitsAux_length_le (2 ^ 32 - k + 1) (2 ^ 32 - k) 9 (by omega)
    simp only [List.length_cons]
    omega

namespace F32

theorem get_mantissa_of_some (oor : F32 → Nat) (x : F32) (k d : Nat) (h1 : toUInt? x = some k)
    (h2 : toUInt? (mul (sub x (ofNat k)) (ofNat 10)) = some d) : get_mantissa oor x = d := by
  unfold get_mantissa get_whole
  rw [toUInt_of_some oor x k h1]
  exact toUInt_of_some oor _ d h2

theorem one_cast : ((one : Nat) : ℚ) = 2 ^ 149 := by unfold one; norm_num

theorem toRat_fin_nat (N : Nat) : toRat (fin (N : Int)) = (N : ℚ) / (one : Nat) := by
  unfold toRat
  rw [one_cast]
  push_cast
  rfl

theorem floor_toRat (N : Nat) : ⌊toRat (fin (N : Int))⌋₊ = N / one := by
  rw [toRat_fin_nat, Nat.floor_div_eq_div]

/-- A finite value that is not negative is `fin N` for a representable `N`. -/
theorem exists_nat_of_nonneg {V : F32} (hfin : Finite V) (h0 : 0 ≤ toRat V) :
    ∃ N : Nat, V = fin (N : Int) ∧ Rep N := by
  cases V with
  | fin n =>
    have hn : 0 ≤ n := by
      unfold toRat at h0
      have : (0 : ℚ) ≤ (n : ℚ) := by
        have h2 : (0 : ℚ) < 2 ^ 149 := by positivity
        by_contra hcon
        push_neg at hcon
        have := div_neg_of_neg_of_pos hcon h2
        linarith
      exact_mod_cast this
    obtain ⟨N, rfl⟩ := Int.eq_ofNat_of_zero_le hn
    exact ⟨N, rfl, by simpa [Finite] using hfin⟩
  | inf s => exact absurd hfin (by simp [Finite])
  | nan => exact absurd hfin (by simp [Finite])

theorem lt_of_toRat_lt {N k : Nat} (h : toRat (fin (N : Int)) < (k : ℚ)) : N < k * one := by
  rw [toRat_fin_nat, div_lt_iff₀ (by rw [one_cast]; positivity)] at h
  exact_mod_cast h

end F32

theorem format_pair (a b : Nat) :
    format "%d.%d".toList [Arg.uint a, Arg.uint b] = fmt_d a ++ '.' :: fmt_d b := by
  simp [format]

namespace F32

theorem toRat_fin (n : Int) : toRat (fin n) = (n : ℚ) / 2 ^ 149 := by
  simp only [toRat]

theorem toRat_nonneg (N : Nat) : 0 ≤ toRat (fin (N : Int)) := by
  rw [toRat_fin_nat]; positivity

theorem toRat_lt_of {N k : Nat} (h : N < k * one) : toRat (fin (N : Int)) < (k : ℚ) := by
  rw [toRat_fin_nat, div_lt_iff₀ (by rw [one_cast]; positivity)]
  exact_mod_cast h

/-- The cast is defined, with value `0`, on the finite values in `(-1, 0)`. -/
theorem toUInt?_neg {n : Int} (h0 : n < 0) (h1 : -(one : Int) < n) :
    toUInt? (fin n) = some 0 := by
  unfold toUInt?
  have h2 : n < 2 ^ 32 * (one : Int) := by
    have : (0 : Int) ≤ 2 ^ 32 * (one : Int) := by positivity
    omega
  have h3 : n.toNat = 0 := by omega
  simp only [h1, h2, and_self, if_true, h3, Nat.zero_div]



theorem round_exact (neg : Bool) {a b : Nat} {n : Int} (hb : 0 < b) (hn : Rep n.natAbs)
    (ha : a = n.natAbs * b) (hs : n ≠ 0 → (neg = true ↔ n < 0)) : round neg a b = fin n := by
  rw [round_of_rep neg hb hn ha]
  congr 1
  by_cases h0 : n = 0
  · subst h0; simp
  · have := hs h0
    cases neg
    · simp only [Bool.false_eq_true, false_iff, not_lt] at this
      simp only [Bool.false_eq_true, if_false]
      omega
    · simp only [true_iff] at this
      simp only [if_true]
      omega

theorem one_cast_int : ((one : Int) : ℚ) = 2 ^ 149 := by
  have := one_cast
  exact_mod_cast this

theorem exists_int_of_isF32 {q : ℚ} (h : IsF32 q) : ∃ n : Int, Rep n.natAbs ∧ (n : ℚ) / 2 ^ 149 = q := by
  obtain ⟨x, hx, rfl⟩ := h
  cases x with
  | fin n => exact ⟨n, hx, (toRat_fin n).symm⟩
  | inf s => exact absurd hx (by simp [Finite])
  | nan => exact absurd hx (by simp [Finite])

theorem neg_iff_of_mul_eq {x y z w : Int} (h : x * y = z * w) (hy : 0 < y) (hw : 0 < w) :
    x < 0 ↔ z < 0 := by
  constructor
  · intro hx
    by_contra hc
    push_neg at hc
    have h1 := mul_neg_of_neg_of_pos hx hy
    have h2 := mul_nonneg hc hw.le
    omega
  · intro hz
    by_contra hc
    push_neg at hc
    have h1 := mul_neg_of_neg_of_pos hz hw
    have h2 := mul_nonneg hc hy.le
    omega

/-- Sign of a product or quotient `n` of `a` and `b`: negative exactly when the
signs of `a` and `b` differ. -/
theorem xor_sign {a b n : Int} (ha : a ≠ 0) (hb : b ≠ 0)
    (hpos : 0 < b → (n < 0 ↔ a < 0)) (hneg : b < 0 → (n < 0 ↔ 0 < a)) :
    ((decide (a < 0) != decide (b < 0)) = true ↔ n < 0) := by
  rcases lt_trichotomy b 0 with hb0 | hb0 | hb0
  · have h1 := hneg hb0
    have hb1 : decide (b < 0) = true := by simpa using hb0
    rw [hb1, h1]
    by_cases h : a < 0
    · have : ¬ 0 < a := by omega
      simp [h, this]
    · have : 0 < a := by omega
      simp [h, this]
  · exact absurd hb0 hb
  · have h1 := hpos hb0
    have hn : ¬ b < 0 := by omega
    have hb1 : decide (b < 0) = false := by simpa using hn
    rw [hb1, h1]
    by_cases h : a < 0 <;> simp [h]

theorem mul_exact {a b n : Int} (hn : Rep n.natAbs)
    (h : (n : ℚ) / 2 ^ 149 = ((a : ℚ) / 2 ^ 149) * ((b : ℚ) / 2 ^ 149)) :
    mul (fin a) (fin b) = fin n := by
  have hab : n * (one : Int) = a * b := by
    have h2 : (n : ℚ) * 2 ^ 149 = (a : ℚ) * b := by
      field_simp at h
      linarith
    rw [← one_cast_int] at h2
    exact_mod_cast h2
  have hone : (0 : Int) < (one : Int) := by exact_mod_cast one_pos
  simp only [mul]
  apply round_exact _ one_pos hn
  · have := congrArg Int.natAbs hab
    rw [Int.natAbs_mul, Int.natAbs_mul, Int.natAbs_ofNat] at this
    exact this.symm
  · intro hn0
    have hne : a * b ≠ 0 := by rw [← hab]; exact mul_ne_zero hn0 hone.ne'
    have ha : a ≠ 0 := left_ne_zero_of_mul hne
    have hb : b ≠ 0 := right_ne_zero_of_mul hne
    apply xor_sign ha hb
    · intro hb0
      exact neg_iff_of_mul_eq hab hone hb0
    · intro hb0
      have h2 : n * (one : Int) = (-a) * (-b) := by rw [hab]; ring
      have := neg_iff_of_mul_eq h2 hone (by omega : 0 < -b)
      rw [this]; omega

theorem div_exact {a b n : Int} (hb : b ≠ 0) (hn : Rep n.natAbs)
    (h : (n : ℚ) / 2 ^ 149 = ((a : ℚ) / 2 ^ 149) / ((b : ℚ) / 2 ^ 149)) :
    div (fin a) (fin b) = fin n := by
  have hbq : (b : ℚ) ≠ 0 := by exact_mod_cast hb
  have hab : n * b = a * (one : Int) := by
    have h2 : (n : ℚ) * b = (a : ℚ) * 2 ^ 149 := by
      field_simp at h
      linarith
    rw [← one_cast_int] at h2
    exact_mod_cast h2
  have hone : (0 : Int) < (one : Int) := by exact_mod_cast one_pos
  simp only [div, if_neg hb]
  apply round_exact _ (Int.natAbs_pos.2 hb) hn
  · have := congrArg Int.natAbs hab
    rw [Int.natAbs_mul, Int.natAbs_mul, Int.natAbs_ofNat] at this
    exact this.symm
  · intro hn0
    have hne : a * (one : Int) ≠ 0 := by rw [← hab]; exact mul_ne_zero hn0 hb
    have ha : a ≠ 0 := left_ne_zero_of_mul hne
    apply xor_sign ha hb
    · intro hb0
      exact neg_iff_of_mul_eq hab hb0 hone
    · intro hb0
      have h2 : n * (-b) = (-a) * (one : Int) := by
        have : n * (-b) = -(n * b) := by ring
        rw [this, hab]; ring
      have := neg_iff_of_mul_eq h2 (by omega : 0 < -b) hone
      rw [this]; omega

theorem add_exact {a b n : Int} (hn : Rep n.natAbs)
    (h : (n : ℚ) / 2 ^ 149 = (a : ℚ) / 2 ^ 149 + (b : ℚ) / 2 ^ 149) :
    add (fin a) (fin b) = fin n := by
  have hab : n = a + b := by
    have h2 : (n : ℚ) = (a : ℚ) + b := by
      field_simp at h
      linarith
    exact_mod_cast h2
  unfold add
  apply round_exact _ Nat.one_pos hn
  · rw [hab, Nat.mul_one]
  · intro _
    rw [hab]
    simp

set_option maxRecDepth 100000 in
theorem ofNat_consts : ofNat 9 = fin ((9 * one : Nat) : Int) ∧ ofNat 5 = fin ((5 * one : Nat) : Int)
    ∧ ofNat 32 = fin ((32 * one : Nat) : Int) := by decide


theorem inUIntRange_fin {N : Nat} (hrep : Rep N) (h : N < 2 ^ 32 * one) :
    InUIntRange (fin (N : Int)) := by
  refine ⟨hrep, toRat_nonneg N, ?_⟩
  have := toRat_lt_of (k := 2 ^ 32) h
  push_cast at this
  exact this

theorem floor_frac_ten (N : Nat) :
    ⌊((fin (N : Int)).toRat - ((⌊(fin (N : Int)).toRat⌋₊ : Nat) : ℚ)) * 10⌋₊
      = 10 * (N % one) / one := by
  rw [floor_toRat, toRat_fin_nat]
  have hdm := Nat.div_add_mod N one
  have hc : (N : ℚ) = (one : ℚ) * ((N / one : Nat) : ℚ) + ((N % one : Nat) : ℚ) := by
    exact_mod_cast hdm.symm
  have hpos : (0 : ℚ) < (one : ℚ) := by exact_mod_cast one_pos
  have : ((N : ℚ) / (one : ℚ) - ((N / one : Nat) : ℚ)) * 10
      = ((10 * (N % one) : Nat) : ℚ) / (one : ℚ) := by
    push_cast
    field_simp
    linarith
  rw [this, Nat.floor_div_eq_div]

theorem toRat_ofNat {k : Nat} (h : ofNat k = fin ((k * one : Nat) : Int)) :
    (ofNat k).toRat = k := by
  rw [h, toRat_fin_nat]
  have hpos : (0 : ℚ) < (one : ℚ) := by exact_mod_cast one_pos
  push_cast
  field_simp

theorem isF32_nat {k : Nat} (h : ofNat k = fin ((k * one : Nat) : Int))
    (hf : Finite (ofNat k)) : IsF32 (k : ℚ) := ⟨ofNat k, hf, toRat_ofNat h⟩

theorem inUIntRange_whole (oor : F32 → Nat) {V : F32} (h : InUIntRange V) :
    get_whole oor V < 2 ^ 32 ∧ get_mantissa oor V ≤ 9 := by
  obtain ⟨hfin, h0, h1⟩ := h
  obtain ⟨N, rfl, hrep⟩ := exists_nat_of_nonneg hfin h0
  have hN : N < 2 ^ 32 * one := by
    have : (fin (N : Int)).toRat < ((2 ^ 32 : Nat) : ℚ) := by push_cast; exact h1
    exact lt_of_toRat_lt this
  rw [get_whole_nonneg oor hN, get_mantissa_nonneg oor hrep hN]
  refine ⟨?_, (mantissa_bounds (rep_frac hrep) (Nat.mod_lt _ one_pos)).2.2⟩
  rw [Nat.div_lt_iff_lt_mul one_pos]
  exact hN

end F32

namespace F32

set_option maxRecDepth 100000 in
/-- Known binary32 facts reproduced by the model: the bit pattern of `0.1f`, ties
going to the even neighbour at `2^24`, the largest finite value and the overflow
threshold, ties among subnormals, and two rounded operations. -/
theorem model_checks :
    ofDec 1 10 = fin (13421773 * 2 ^ 122)
    ∧ ofNat 16777217 = ofNat 16777216
    ∧ ofNat 16777219 = ofNat 16777220
    ∧ ofNat (2 ^ 128 - 2 ^ 104) = fin ((2 ^ 24 - 1) * 2 ^ 253)
    ∧ ofNat (2 ^ 128 - 2 ^ 103 - 1) = fin ((2 ^ 24 - 1) * 2 ^ 253)
    ∧ ofNat (2 ^ 128 - 2 ^ 103) = inf false
    ∧ ofDec 1 (2 ^ 150) = fin 0
    ∧ ofDec 3 (2 ^ 150) = fin 2
    ∧ mul (ofDec 1 10) (ofNat 3) = ofDec 3 10
    ∧ div (ofNat 1) (ofNat 3) = fin (11184811 * 2 ^ 124)
    ∧ sub (ofDec 3 10) (ofDec 1 10) = fin (13421774 * 2 ^ 123) := by
  decide

end F32

/-! ## The claims -/

/-- C1 (amended): `c_to_f C` is `C*9/5+32` exactly whenever `C*9`, `C*9/5` and
`C*9/5+32` are binary32 values; the result is then finite. -/
theorem C1_exact_when_representable (C : F32) (hfin : F32.Finite C)
    (h1 : F32.IsF32 (C.toRat * 9)) (h2 : F32.IsF32 (C.toRat * 9 / 5))
    (h3 : F32.IsF32 (C.toRat * 9 / 5 + 32)) :
    F32.Finite (c_to_f C) ∧ (c_to_f C).toRat = C.toRat * 9 / 5 + 32 := by
  cases C with
  | fin c =>
    obtain ⟨n1, r1, e1⟩ := F32.exists_int_of_isF32 h1
    obtain ⟨n2, r2, e2⟩ := F32.exists_int_of_isF32 h2
    obtain ⟨n3, r3, e3⟩ := F32.exists_int_of_isF32 h3
    rw [F32.toRat_fin] at e1 e2 e3
    have hone := F32.one_cast
    have hm : F32.mul (F32.fin c) (F32.ofNat 9) = F32.fin n1 := by
      rw [F32.ofNat_consts.1]
      apply F32.mul_exact r1
      rw [e1]
      push_cast
      rw [hone]
      field_simp
    have hd : F32.div (F32.fin n1) (F32.ofNat 5) = F32.fin n2 := by
      rw [F32.ofNat_consts.2.1]
      have h5 : ((5 * F32.one : Nat) : Int) ≠ 0 := by
        have := F32.one_pos
        omega
      apply F32.div_exact h5 r2
      rw [e2, e1]
      push_cast
      rw [hone]
      field_simp
    have ha : F32.add (F32.fin n2) (F32.ofNat 32) = F32.fin n3 := by
      rw [F32.ofNat_consts.2.2]
      apply F32.add_exact r3
      rw [e3, e2]
      push_cast
      rw [hone]
      field_simp
    unfold c_to_f
    rw [hm, hd, ha]
    exact ⟨r3, by rw [F32.toRat_fin, e3, F32.toRat_fin]⟩
  | inf s => exact absurd hfin (by simp [F32.Finite])
  | nan => exact absurd hfin (by simp [F32.Finite])

set_option maxRecDepth 100000 in
/-- C1 at 20 °C and at 0 °C: the intermediate values 180, 36, 68 and 0, 0, 32 are
binary32 values, and the results are exactly 68 and 32. -/
theorem C1_exact_when_representable_witness :
    (c_to_f (F32.ofNat 20)).toRat = 68 ∧ (c_to_f (F32.ofNat 0)).toRat = 32 := by
  have t20 : (F32.ofNat 20).toRat = 20 := F32.toRat_ofNat (by decide)
  have t0 : (F32.ofNat 0).toRat = 0 := by
    have := F32.toRat_ofNat (k := 0) (by decide)
    exact_mod_cast this
  have a := C1_exact_when_representable (F32.ofNat 20) (by decide)
    (by rw [t20]; exact_mod_cast F32.isF32_nat (k := 180) (by decide) (by decide))
    (by rw [t20]; have := F32.isF32_nat (k := 36) (by decide) (by decide); norm_num at this ⊢; exact this)
    (by rw [t20]; have := F32.isF32_nat (k := 68) (by decide) (by decide); norm_num at this ⊢; exact this)
  have b := C1_exact_when_representable (F32.ofNat 0) (by decide)
    (by rw [t0]; have := F32.isF32_nat (k := 0) (by decide) (by decide); norm_num at this ⊢; exact this)
    (by rw [t0]; have := F32.isF32_nat (k := 0) (by decide) (by decide); norm_num at this ⊢; exact this)
    (by rw [t0]; have := F32.isF32_nat (k := 32) (by decide) (by decide); norm_num at this ⊢; exact this)
  refine ⟨?_, ?_⟩
  · rw [a.2, t20]; norm_num
  · rw [b.2, t0]; norm_num

set_option maxRecDepth 100000 in
/-- C1 fails at 1 °C: `c_to_f 1` is the binary32 value 8860467 / 2^18 =
33.79999923706..., not 1*9/5+32 = 33.8, which no binary32 value equals. -/
theorem C1_counterexample :
    F32.Finite (F32.ofNat 1)
    ∧ (c_to_f (F32.ofNat 1)).toRat = 8860467 / 2 ^ 18
    ∧ (c_to_f (F32.ofNat 1)).toRat ≠ (F32.ofNat 1).toRat * 9 / 5 + 32 := by
  have t1 : (F32.ofNat 1).toRat = 1 := by
    have := F32.toRat_ofNat (k := 1) (by decide)
    exact_mod_cast this
  have e : c_to_f (F32.ofNat 1) = F32.fin ((8860467 * 2 ^ 131 : Nat) : Int) := by decide
  have v : (c_to_f (F32.ofNat 1)).toRat = 8860467 / 2 ^ 18 := by
    rw [e, F32.toRat_fin]
    norm_num
  refine ⟨by decide, v, ?_⟩
  rw [v, t1]
  norm_num

/-- C2 (amended): for a finite `V` with `0 ≤ V < 2^31` the text is the decimal
numeral of `floor V`, a dot, and one digit; the digit is the floor of the
binary32 product `(V - floor V) * 10` (the subtraction is exact, the product is
rounded to nearest), is at most 9, and is `floor ((V - floor V) * 10)` or one
more. -/
theorem C2_format_truncates (oor : F32 → Nat) (V : F32) (hfin : F32.Finite V)
    (h0 : 0 ≤ V.toRat) (h1 : V.toRat < 2 ^ 31) :
    format "%d.%d".toList [Arg.uint (get_whole oor V), Arg.uint (get_mantissa oor V)]
        = dec ⌊V.toRat⌋₊ ++ '.' :: [Char.ofNat (48 + get_mantissa oor V)]
    ∧ get_mantissa oor V ≤ 9
    ∧ (F32.sub V (F32.ofNat ⌊V.toRat⌋₊)).toRat = V.toRat - ⌊V.toRat⌋₊
    ∧ get_mantissa oor V = ⌊(F32.mul (F32.sub V (F32.ofNat ⌊V.toRat⌋₊)) (F32.ofNat 10)).toRat⌋₊
    ∧ ⌊(V.toRat - ⌊V.toRat⌋₊) * 10⌋₊ ≤ get_mantissa oor V
    ∧ get_mantissa oor V ≤ ⌊(V.toRat - ⌊V.toRat⌋₊) * 10⌋₊ + 1 := by
  obtain ⟨N, rfl, hrep⟩ := F32.exists_nat_of_nonneg hfin h0
  have hN31 : N < 2 ^ 31 * F32.one := by
    have : (F32.fin (N : Int)).toRat < ((2 ^ 31 : Nat) : ℚ) := by push_cast; exact h1
    exact F32.lt_of_toRat_lt this
  have hN : N < 2 ^ 32 * F32.one := by
    have := F32.one_pos
    calc N < 2 ^ 31 * F32.one := hN31
      _ ≤ 2 ^ 32 * F32.one := Nat.mul_le_mul_right _ (by norm_num)
  have hfl := F32.floor_toRat N
  have hw := F32.get_whole_nonneg oor hN
  have hm := F32.get_mantissa_nonneg oor hrep hN
  have hfrac : N % F32.one < F32.one := Nat.mod_lt _ F32.one_pos
  obtain ⟨b1, b2, b3⟩ := F32.mantissa_bounds (F32.rep_frac hrep) hfrac
  have hw31 : N / F32.one < 2 ^ 31 := by
    rw [Nat.div_lt_iff_lt_mul F32.one_pos]; exact hN31
  have hsub : (F32.sub (F32.fin (N : Int)) (F32.ofNat (N / F32.one))).toRat
      = (F32.fin (N : Int)).toRat - ((N / F32.one : Nat) : ℚ) := by
    rw [F32.sub_floor hrep, F32.toRat_fin_nat, F32.toRat_fin_nat]
    have hdm := Nat.div_add_mod N F32.one
    have hc : (N : ℚ) = (F32.one : ℚ) * ((N / F32.one : Nat) : ℚ) + ((N % F32.one : Nat) : ℚ) := by
      exact_mod_cast hdm.symm
    have hpos : (0 : ℚ) < (F32.one : ℚ) := by exact_mod_cast F32.one_pos
    field_simp
    linarith
  have hfl10 : ⌊((F32.fin (N : Int)).toRat - ((N / F32.one : Nat) : ℚ)) * 10⌋₊
      = 10 * (N % F32.one) / F32.one := by
    rw [← hsub, F32.sub_floor hrep, F32.toRat_fin_nat]
    have : ((N % F32.one : Nat) : ℚ) / (F32.one : ℚ) * 10
        = ((10 * (N % F32.one) : Nat) : ℚ) / (F32.one : ℚ) := by
      push_cast; ring
    rw [this, Nat.floor_div_eq_div]
  rw [hfl, hw, hm, hfl10]
  refine ⟨?_, b3, hsub, ?_, b1, b2⟩
  · rw [format_pair, fmt_d_small hw31, fmt_d_digit b3]
  · rw [F32.sub_floor hrep, F32.mul_ten (F32.rep_frac hrep) hfrac, F32.floor_toRat]

set_option maxRecDepth 100000 in
/-- C2 at V = 68.97 (the binary32 value nearest to it): the text is `68.9`. -/
theorem C2_format_truncates_witness :
    format "%d.%d".toList
        [Arg.uint (get_whole (fun _ => 0) (F32.ofDec 6897 100)),
         Arg.uint (get_mantissa (fun _ => 0) (F32.ofDec 6897 100))]
      = "68.9".toList := by
  have e : F32.ofDec 6897 100 = F32.fin ((9040036 * 2 ^ 132 : Nat) : Int) := by decide
  have h0 : 0 ≤ (F32.ofDec 6897 100).toRat := by rw [e]; exact F32.toRat_nonneg _
  have h1 : (F32.ofDec 6897 100).toRat < 2 ^ 31 := by
    rw [e]
    have := F32.toRat_lt_of (N := 9040036 * 2 ^ 132) (k := 2 ^ 31) (by decide)
    push_cast at this ⊢
    exact this
  have hfl : ⌊(F32.ofDec 6897 100).toRat⌋₊ = 68 := by
    rw [e, F32.floor_toRat]; decide
  have hm : get_mantissa (fun _ => 0) (F32.ofDec 6897 100) = 9 :=
    F32.get_mantissa_of_some _ _ 68 9 (by decide) (by decide)
  have h := (C2_format_truncates (fun _ => 0) (F32.ofDec 6897 100) (by decide) h0 h1).1
  rw [h, hfl, hm]
  decide

set_option maxRecDepth 100000 in
/-- C2 fails for large values and, in its digit, for values just below a tenth.
`V = 2^31` is finite and positive with `floor V = 2147483648`, and the text is
`-2147483648.0`.  `V = 0.7f` (the binary32 value nearest to 0.7, which is below
0.7) has `floor ((V - 0) * 10) = 6`, and the text is `0.7`. -/
theorem C2_counterexample :
    (F32.Finite (F32.ofNat (2 ^ 31)) ∧ (F32.ofNat (2 ^ 31)).toRat = 2 ^ 31
      ∧ ⌊(F32.ofNat (2 ^ 31)).toRat⌋₊ = 2147483648
      ∧ ∀ oor : F32 → Nat,
          format "%d.%d".toList
            [Arg.uint (get_whole oor (F32.ofNat (2 ^ 31))),
             Arg.uint (get_mantissa oor (F32.ofNat (2 ^ 31)))] = "-2147483648.0".toList)
    ∧ (F32.Finite (F32.ofDec 7 10) ∧ (F32.ofDec 7 10).toRat = 11744051 / 2 ^ 24
      ∧ ⌊(F32.ofDec 7 10).toRat⌋₊ = 0
      ∧ ⌊((F32.ofDec 7 10).toRat - ((⌊(F32.ofDec 7 10).toRat⌋₊ : Nat) : ℚ)) * 10⌋₊ = 6
      ∧ ∀ oor : F32 → Nat,
          format "%d.%d".toList
            [Arg.uint (get_whole oor (F32.ofDec 7 10)),
             Arg.uint (get_mantissa oor (F32.ofDec 7 10))] = "0.7".toList) := by
  have e1 : F32.ofNat (2 ^ 31) = F32.fin ((2 ^ 31 * F32.one : Nat) : Int) := by decide
  have e2 : F32.ofDec 7 10 = F32.fin ((11744051 * 2 ^ 125 : Nat) : Int) := by decide
  refine ⟨⟨by decide, ?_, ?_, ?_⟩, ⟨by decide, ?_, ?_, ?_, ?_⟩⟩
  · have := F32.toRat_ofNat e1
    push_cast at this
    exact this
  · rw [e1, F32.floor_toRat]; decide
  · intro oor
    have hw : get_whole oor (F32.ofNat (2 ^ 31)) = 2147483648 :=
      F32.toUInt_of_some oor _ _ (by decide)
    have hm : get_mantissa oor (F32.ofNat (2 ^ 31)) = 0 :=
      F32.get_mantissa_of_some oor _ 2147483648 0 (by decide) (by decide)
    rw [hw, hm]
    decide
  · rw [e2, F32.toRat_fin]
    norm_num
  · rw [e2, F32.floor_toRat]; decide
  · rw [e2, F32.floor_frac_ten]; decide
  · intro oor
    have hw : get_whole oor (F32.ofDec 7 10) = 0 :=
      F32.toUInt_of_some oor _ _ (by decide)
    have hm : get_mantissa oor (F32.ofDec 7 10) = 7 :=
      F32.get_mantissa_of_some oor _ 0 7 (by decide) (by decide)
    rw [hw, hm]
    decide

set_option maxRecDepth 100000 in
/-- C3: whatever the platform does outside the range of the cast, a reading of
0.0 °C is 32.0 °F and renders as `32.0`, 20.0 °C is 68.0 °F and renders as
`68.0`, and 21.72 °C is the binary32 value nearest to 71.096 and renders as
`71.0`; `Update` writes them as `Set:32.0F`, `Amb:68.0F` and `Vent:71.0F`. -/
theorem C3_boundary_scenarios (oor : F32 → Nat) (mode : List Char) :
    c_to_f (F32.ofNat 0) = F32.ofNat 32
    ∧ format "%d.%d".toList
        [Arg.uint (get_whole oor (c_to_f (F32.ofNat 0))),
         Arg.uint (get_mantissa oor (c_to_f (F32.ofNat 0)))] = "32.0".toList
    ∧ c_to_f (F32.ofNat 20) = F32.ofNat 68
    ∧ format "%d.%d".toList
        [Arg.uint (get_whole oor (c_to_f (F32.ofNat 20))),
         Arg.uint (get_mantissa oor (c_to_f (F32.ofNat 20)))] = "68.0".toList
    ∧ c_to_f (F32.ofDec 2172 100) = F32.ofDec 71096 1000
    ∧ format "%d.%d".toList
        [Arg.uint (get_whole oor (c_to_f (F32.ofDec 2172 100))),
         Arg.uint (get_mantissa oor (c_to_f (F32.ofDec 2172 100)))] = "71.0".toList
    ∧ (writes (Display.Update oor (F32.ofNat 0) (F32.ofNat 20) (F32.ofDec 2172 100) mode).calls).take 3
        = ["Set:32.0F".toList, "Amb:68.0F".toList, "Vent:71.0F".toList] := by
  have w0 : get_whole oor (c_to_f (F32.ofNat 0)) = 32 := F32.toUInt_of_some oor _ _ (by decide)
  have m0 : get_mantissa oor (c_to_f (F32.ofNat 0)) = 0 :=
    F32.get_mantissa_of_some oor _ 32 0 (by decide) (by decide)
  have w1 : get_whole oor (c_to_f (F32.ofNat 20)) = 68 := F32.toUInt_of_some oor _ _ (by decide)
  have m1 : get_mantissa oor (c_to_f (F32.ofNat 20)) = 0 :=
    F32.get_mantissa_of_some oor _ 68 0 (by decide) (by decide)
  have w2 : get_whole oor (c_to_f (F32.ofDec 2172 100)) = 71 :=
    F32.toUInt_of_some oor _ _ (by decide)
  have m2 : get_mantissa oor (c_to_f (F32.ofDec 2172 100)) = 0 :=
    F32.get_mantissa_of_some oor _ 71 0 (by decide) (by decide)
  rw [Update_calls, w0, m0, w1, m1, w2, m2]
  refine ⟨by decide, by decide, by decide, by decide, by decide, by decide, ?_⟩
  simp only [writes, List.take]
  decide

/-- C4 (amended): for a finite value with `-1 < value < 2^32`, `get_whole` is
the value truncated toward zero (so `0` for a value in `(-1, 0)`), and below
`2^31` the `%d` that `Update` prints it with shows exactly that number. -/
theorem C4_get_whole_truncates (oor : F32 → Nat) (V : F32) (hfin : F32.Finite V)
    (h0 : -1 < V.toRat) (h1 : V.toRat < 2 ^ 32) :
    (get_whole oor V : ℤ) = truncZ V.toRat
    ∧ (V.toRat < 2 ^ 31 → fmt_d (get_whole oor V) = dec (truncZ V.toRat).toNat) := by
  have key : (get_whole oor V : ℤ) = truncZ V.toRat := by
    by_cases hnn : 0 ≤ V.toRat
    · obtain ⟨N, rfl, hrep⟩ := F32.exists_nat_of_nonneg hfin hnn
      have hN : N < 2 ^ 32 * F32.one := by
        have : (F32.fin (N : Int)).toRat < ((2 ^ 32 : Nat) : ℚ) := by push_cast; exact h1
        exact F32.lt_of_toRat_lt this
      rw [F32.get_whole_nonneg oor hN]
      unfold truncZ
      rw [if_pos hnn, ← Int.natCast_floor_eq_floor hnn, F32.floor_toRat]
    · cases V with
      | fin n =>
        have hpos : (0 : ℚ) < 2 ^ 149 := by positivity
        have hn0 : n < 0 := by
          by_contra hcon
          apply hnn
          rw [F32.toRat_fin]
          have : (0 : ℚ) ≤ (n : ℚ) := by exact_mod_cast (not_lt.1 hcon)
          exact div_nonneg this hpos.le
        have hn1 : -(F32.one : Int) < n := by
          rw [F32.toRat_fin, lt_div_iff₀ hpos] at h0
          have h2 : ((-(F32.one : Int) : Int) : ℚ) < (n : ℚ) := by
            push_cast
            rw [F32.one_cast]
            linarith
          exact_mod_cast h2
        have hw : get_whole oor (F32.fin n) = 0 :=
          F32.toUInt_of_some oor _ _ (F32.toUInt?_neg hn0 hn1)
        rw [hw]
        unfold truncZ
        rw [if_neg hnn]
        symm
        rw [Int.ceil_eq_iff]
        push_neg at hnn
        constructor
        · push_cast; linarith
        · push_cast; linarith
      | inf s => exact absurd hfin (by simp [F32.Finite])
      | nan => exact absurd hfin (by simp [F32.Finite])
  refine ⟨key, fun h31 => ?_⟩
  have hlt : get_whole oor V < 2 ^ 31 := by
    have hz : truncZ V.toRat < 2 ^ 31 := by
      unfold truncZ
      split_ifs with hnn
      · rw [Int.floor_lt]; push_cast; exact h31
      · push_neg at hnn
        have : ⌈V.toRat⌉ ≤ 0 := by
          rw [Int.ceil_le]; push_cast; linarith
        omega
    rw [← key] at hz
    exact_mod_cast hz
  rw [fmt_d_small hlt, ← key, Int.toNat_ofNat]

set_option maxRecDepth 100000 in
/-- C4 at -0.5: `get_whole` is 0, the value truncated toward zero. -/
theorem C4_get_whole_truncates_witness :
    (get_whole (fun _ => 0) (F32.neg (F32.ofDec 5 10)) : ℤ)
      = truncZ (F32.neg (F32.ofDec 5 10)).toRat := by
  have e : F32.neg (F32.ofDec 5 10) = F32.fin (-(2 ^ 148)) := by decide
  have v : (F32.neg (F32.ofDec 5 10)).toRat = -1 / 2 := by
    rw [e, F32.toRat_fin]; norm_num
  exact (C4_get_whole_truncates (fun _ => 0) (F32.neg (F32.ofDec 5 10)) (by decide)
    (by rw [v]; norm_num) (by rw [v]; norm_num)).1

set_option maxRecDepth 100000 in
/-- C4 fails at -40.5: the value is finite, its truncation toward zero is -40,
the cast to `uint` has no defined result there, and whatever a platform returns
for it, `get_whole` is an unsigned number and so is not -40. -/
theorem C4_counterexample :
    F32.Finite (F32.neg (F32.ofDec 405 10))
    ∧ (F32.neg (F32.ofDec 405 10)).toRat = -81 / 2
    ∧ truncZ (F32.neg (F32.ofDec 405 10)).toRat = -40
    ∧ F32.toUInt? (F32.neg (F32.ofDec 405 10)) = none
    ∧ ∀ oor : F32 → Nat,
        (get_whole oor (F32.neg (F32.ofDec 405 10)) : ℤ)
          ≠ truncZ (F32.neg (F32.ofDec 405 10)).toRat := by
  have e : F32.neg (F32.ofDec 405 10) = F32.fin (-(81 * 2 ^ 148)) := by decide
  have v : (F32.neg (F32.ofDec 405 10)).toRat = -81 / 2 := by
    rw [e, F32.toRat_fin]; norm_num
  have t : truncZ (F32.neg (F32.ofDec 405 10)).toRat = -40 := by
    rw [v]
    unfold truncZ
    rw [if_neg (by norm_num), Int.ceil_eq_iff]
    constructor <;> norm_num
  refine ⟨by decide, v, t, by decide, ?_⟩
  intro oor
  rw [t]
  omega

/-- C5: two `Update` calls in a row with the same inputs leave the frame buffer
that one call leaves, and the buffer after an `Update` is the same whatever the
buffer, the presented frame, the cursor, the text size and the dimming were
before it. -/
theorem C5_update_idempotent {Frame : Type} (g : Gfx Frame) (d : Device Frame)
    (oor : F32 → Nat) (sp amb vent : F32) (mode : List Char) :
    (Device.run g (Device.run g d (Display.Update oor sp amb vent mode).calls)
        (Display.Update oor sp amb vent mode).calls).buffer
      = (Device.run g d (Display.Update oor sp amb vent mode).calls).buffer
    ∧ ∀ (b s : Frame) (cx cy : Int) (sx sy : Nat) (dm : Bool),
        (Device.run g
            { text := { d.text with cursor_x := cx, cursor_y := cy, textsize_x := sx,
                                    textsize_y := sy },
              dimmed := dm, buffer := b, screen := s }
            (Display.Update oor sp amb vent mode).calls).buffer
          = (Device.run g d (Display.Update oor sp amb vent mode).calls).buffer := by
  rw [Update_calls]
  refine ⟨?_, ?_⟩
  · simp [Device.run, Device.step]
  · intro b s cx cy sx sy dm
    simp [Device.run, Device.step]

/-- C6: whatever the inputs, the renderer and the device state, `Update` draws
exactly four text fields, at fixed cursor positions: one starting `Set:` at
(0,0), one starting `Amb:` at (0,18), one starting `Vent:` at (64,0) and one
starting `Mode:` at (64,18). -/
theorem C6_update_layout {Frame : Type} (g : Gfx Frame) (d : Device Frame)
    (oor : F32 → Nat) (sp amb vent : F32) (mode : List Char) :
    ∃ r1 r2 r3 r4 : List Char,
      Device.fields g d (Display.Update oor sp amb vent mode).calls =
        [(0, 0, "Set:".toList ++ r1), (0, 18, "Amb:".toList ++ r2),
         (64, 0, "Vent:".toList ++ r3), (64, 18, "Mode:".toList ++ r4)] := by
  rw [Update_calls]
  refine ⟨fmt_d (get_whole oor (c_to_f sp)) ++ ".".toList
            ++ fmt_d (get_mantissa oor (c_to_f sp)) ++ "F".toList,
          fmt_d (get_whole oor (c_to_f amb)) ++ ".".toList
            ++ fmt_d (get_mantissa oor (c_to_f amb)) ++ "F".toList,
          fmt_d (get_whole oor (c_to_f vent)) ++ ".".toList
            ++ fmt_d (get_mantissa oor (c_to_f vent)) ++ "F".toList,
          c_str mode, ?_⟩
  simp [Device.fields, Device.step]

/-- C7: when `begin` fails `Start` emits the diagnostic and performs no
operation on the display; when `begin` succeeds it emits no diagnostic and
performs dim(true), white text colour, wrap off, cp437 on, clear and one
flush, in that order.  `Start` yields nothing but these effects. -/
theorem C7_start :
    Display.Start false =
        [Display.Effect.begin VccSource.switchCapVcc Display.SCREEN_ADDRESS false false,
         Display.Effect.serialPrintln "SSD1306 allocation failed"]
    ∧ (∀ c : DisplayCall, Display.Effect.call c ∉ Display.Start false)
    ∧ Display.Start true =
        [Display.Effect.begin VccSource.switchCapVcc Display.SCREEN_ADDRESS false false,
         Display.Effect.call (DisplayCall.dim true),
         Display.Effect.call (DisplayCall.setTextColor Color.white),
         Display.Effect.call (DisplayCall.setTextWrap false),
         Display.Effect.call (DisplayCall.cp437 true),
         Display.Effect.call DisplayCall.clearDisplay,
         Display.Effect.call DisplayCall.display]
    ∧ (∀ msg : String, Display.Effect.serialPrintln msg ∉ Display.Start true) := by
  refine ⟨rfl, ?_, rfl, ?_⟩
  · intro c; simp [Display.Start]
  · intro msg; simp [Display.Start]

/-- C8: in the operations of one `Update`, for every input, the last operation
is the display flush and it is the only flush, and every text write has the
buffer clear before it. -/
theorem C8_update_order (oor : F32 → Nat) (sp amb vent : F32) (mode : List Char) :
    (Display.Update oor sp amb vent mode).calls.getLast? = some DisplayCall.display
    ∧ (Display.Update oor sp amb vent mode).calls.count DisplayCall.display = 1
    ∧ ∀ (i : Nat) (t : List Char),
        (Display.Update oor sp amb vent mode).calls[i]? = some (DisplayCall.write t) →
        ∃ j, j < i ∧ (Display.Update oor sp amb vent mode).calls[j]? = some DisplayCall.clearDisplay := by
  rw [Update_calls]
  refine ⟨by simp, by simp [List.count_cons], ?_⟩
  intro i t h
  refine ⟨1, ?_, by simp⟩
  rcases i with _ | _ | i
  · simp at h
  · simp at h
  · omega

/-- C9: when the three Fahrenheit values are finite with `0 ≤ V < 2^32`, each
temperature line is at most 19 characters long and the `Mode:` line is
5 + length(label) characters long, its `sprintf` storing length(label) + 6
bytes; so every `sprintf` of `Update` stores at most 32 bytes, terminating NUL
included, exactly when the label has at most 26 characters. -/
theorem C9_lines_fit (oor : F32 → Nat) (sp amb vent : F32) (mode : List Char)
    (h1 : F32.InUIntRange (c_to_f sp)) (h2 : F32.InUIntRange (c_to_f amb))
    (h3 : F32.InUIntRange (c_to_f vent)) :
    (∀ t ∈ (writes (Display.Update oor sp amb vent mode).calls).take 3, t.length ≤ 19)
    ∧ (writes (Display.Update oor sp amb vent mode).calls).drop 3 = ["Mode:".toList ++ c_str mode]
    ∧ ("Mode:".toList ++ c_str mode).length = 5 + (c_str mode).length
    ∧ (Display.Update oor sp amb vent mode).stored.getLast?.map List.length
        = some ((c_str mode).length + 6)
    ∧ ((c_str mode).length ≤ 26 ↔
        ∀ s ∈ (Display.Update oor sp amb vent mode).stored, s.length ≤ 32) := by
  obtain ⟨a1, b1⟩ := F32.inUIntRange_whole oor h1
  obtain ⟨a2, b2⟩ := F32.inUIntRange_whole oor h2
  obtain ⟨a3, b3⟩ := F32.inUIntRange_whole oor h3
  have l1 := fmt_d_length_le a1
  have l2 := fmt_d_length_le a2
  have l3 := fmt_d_length_le a3
  have d1 := fmt_d_digit b1
  have d2 := fmt_d_digit b2
  have d3 := fmt_d_digit b3
  rw [Update_calls, Update_stored]
  refine ⟨?_, ?_, ?_, ?_, ?_, ?_⟩
  · intro t ht
    simp only [writes, List.take, List.mem_cons, List.mem_singleton, List.not_mem_nil,
      or_false] at ht
    rcases ht with rfl | rfl | rfl <;>
      simp [d1, d2, d3] <;> omega
  · simp [writes]
  · simp
    omega
  · simp
  · intro hmode s hs
    simp only [List.mem_cons, List.mem_singleton, List.not_mem_nil, or_false] at hs
    rcases hs with rfl | rfl | rfl | rfl <;>
      simp [d1, d2, d3] <;> omega
  · intro h
    have := h (("Mode:".toList ++ c_str mode) ++ [NUL]) (by simp)
    simp at this
    omega

set_option maxRecDepth 100000 in
/-- C9 at setpoint 20 °C, ambient 0 °C, vent 1193046471 °C (whose Fahrenheit
value is 2^31) and a label of 26 characters: all four lines fit their 32 bytes. -/
theorem C9_lines_fit_witness :
    (Display.Update (fun _ => 0) (F32.ofNat 20) (F32.ofNat 0) (F32.ofNat 1193046471)
        "abcdefghijklmnopqrstuvwxyz".toList).stored.all (fun s => decide (s.length ≤ 32))
      = true := by
  have e1 : c_to_f (F32.ofNat 20) = F32.fin ((68 * F32.one : Nat) : Int) := by decide
  have e2 : c_to_f (F32.ofNat 0) = F32.fin ((32 * F32.one : Nat) : Int) := by decide
  have e3 : c_to_f (F32.ofNat 1193046471) = F32.fin ((2 ^ 31 * F32.one : Nat) : Int) := by decide
  have h := (C9_lines_fit (fun _ => 0) (F32.ofNat 20) (F32.ofNat 0) (F32.ofNat 1193046471)
    "abcdefghijklmnopqrstuvwxyz".toList
    (by rw [e1]; exact F32.inUIntRange_fin (by decide) (by decide))
    (by rw [e2]; exact F32.inUIntRange_fin (by decide) (by decide))
    (by rw [e3]; exact F32.inUIntRange_fin (by decide) (by decide))).2.2.2.2.1 (by decide)
  exact List.all_eq_true.2 (fun s hs => decide_eq_true (h s hs))

set_option maxRecDepth 100000 in
/-- The bounds on the lines are attained: a `Vent:` line of 19 characters, a
label of 26 characters storing 32 bytes, and a label of 27 characters storing 33. -/
theorem Update_bounds_attained :
    writes (Display.Update (fun _ => 0) (F32.ofNat 20) (F32.ofNat 0) (F32.ofNat 1193046471)
        "abcdefghijklmnopqrstuvwxyz".toList).calls
      = ["Set:68.0F".toList, "Amb:32.0F".toList, "Vent:-2147483648.0F".toList,
         "Mode:abcdefghijklmnopqrstuvwxyz".toList]
    ∧ (Display.Update (fun _ => 0) (F32.ofNat 20) (F32.ofNat 0) (F32.ofNat 1193046471)
        "abcdefghijklmnopqrstuvwxyz".toList).stored.map List.length = [10, 10, 20, 32]
    ∧ (Display.Update (fun _ => 0) (F32.ofNat 20) (F32.ofNat 0) (F32.ofNat 1193046471)
        "abcdefghijklmnopqrstuvwxyz0".toList).stored.map List.length = [10, 10, 20, 33] := by
  decide

/-- C10: when the bytes of every `sprintf` fit the 32-byte buffer, the four
texts `Update` writes are the four formatted strings themselves: the reused
buffer passes no character of an earlier line on to a later write. -/
theorem C10_writes_are_lines (oor : F32 → Nat) (sp amb vent : F32) (mode : List Char)
    (hfit : ∀ s ∈ (Display.Update oor sp amb vent mode).stored, s.length ≤ 32) :
    writes (Display.Update oor sp amb vent mode).calls =
      [format "Set:%d.%dF".toList
         [Arg.uint (get_whole oor (c_to_f sp)), Arg.uint (get_mantissa oor (c_to_f sp))],
       format "Amb:%d.%dF".toList
         [Arg.uint (get_whole oor (c_to_f amb)), Arg.uint (get_mantissa oor (c_to_f amb))],
       format "Vent:%d.%dF".toList
         [Arg.uint (get_whole oor (c_to_f vent)), Arg.uint (get_mantissa oor (c_to_f vent))],
       format "Mode:%s".toList [Arg.str mode]] := by
  rw [Update_calls]
  simp [writes, format]

set_option maxRecDepth 100000 in
/-- C10 at setpoint 21.72, ambient 20, vent 37.78 and mode `on`: after the
longer `Vent:100.0F` the last write is just `Mode:on`. -/
theorem C10_writes_are_lines_witness :
    writes (Display.Update (fun _ => 0) (F32.ofDec 2172 100) (F32.ofNat 20)
        (F32.ofDec 3778 100) "on".toList).calls =
      ["Set:71.0F".toList, "Amb:68.0F".toList, "Vent:100.0F".toList, "Mode:on".toList] :=
  (C10_writes_are_lines (fun _ => 0) (F32.ofDec 2172 100) (F32.ofNat 20)
    (F32.ofDec 3778 100) "on".toList (by decide)).trans (by decide)

